import Mathlib

/-!
Shallow embedding of the PPO/IPPO experience-processing and loss core of the
`rl_tools` repository, together with theorems settling the frozen claims.

Source files embedded:
* `src/rl_tools/algos/factory.py` — the batching/reshaping lifts
  (`explore_general_factory`, `process_experience_general_factory`);
* `src/rl/loss.py` — `loss_policy_ppo_discrete`, `loss_value_clip`;
* `src/rl/algos/ippo.py` — `compute_values_gaes`, `PPO.explore`, `PPO.update`.

Modelling conventions:
* JAX PRNG keys are modelled by the inductive type `RKey`; `jax.random.split`
  generates the sub-keys `RKey.sub k 0, …, RKey.sub k (n-1)` (threefry splitting
  derives sub-key `i` from counter `i` independently of the total count).
* Arrays are modelled by (nested) lists; machine floats by an arbitrary linearly
  ordered field (instantiated at `ℚ` in witnesses).
* Loss functions are written against an explicit operation record `ScalarOps`,
  so that the same source translation can be read both over a field (value
  semantics) and over forward-mode dual numbers (gradient semantics, used for
  the stop-gradient claim).
* `chex.assert_equal_shape` failures are modelled by `Option.none`.
* External library calls (`distrax` entropy, the networks, the optimizer, the
  missing `calculate_gaes_targets` of `rl/timesteps.py`) are abstract function
  parameters.
-/

/-- Model of a JAX PRNG key: a root seed or the `i`-th sub-key of a split. -/
inductive RKey where
  | base : Nat → RKey
  | sub : RKey → Nat → RKey
deriving DecidableEq, Repr

/-- Model of `jax.random.split(key, n)`: the list of the first `n` sub-keys.
Threefry-based splitting derives sub-key `i` from counters `(2i, 2i+1)`, so the
`i`-th sub-key does not depend on `n`. -/
def rsplit (k : RKey) (n : Nat) : List RKey :=
  (List.range n).map (RKey.sub k)

/-- `chainKey k i` is the carried key after `i` rounds of
`key, _ = jax.random.split(key)`-style chaining (each round keeps sub-key 0). -/
def chainKey (k : RKey) : Nat → RKey
  | 0 => k
  | i + 1 => chainKey (RKey.sub k 0) i

/-- Nesting depth of a key, used to separate keys from different chain rounds. -/
def rdepth : RKey → Nat
  | RKey.base _ => 0
  | RKey.sub k _ => rdepth k + 1

/-- Explicit record of the scalar operations used by the loss functions of
`src/rl/loss.py`.  Instantiating it over a field gives the value semantics;
instantiating it over dual numbers gives forward-mode gradient semantics, which
is how `jax.lax.stop_gradient` (`sgrad`) is given meaning. -/
structure ScalarOps (R : Type) where
  zero : R
  one : R
  ofNat : Nat → R
  add : R → R → R
  sub : R → R → R
  mul : R → R → R
  neg : R → R
  div : R → R → R
  exp : R → R
  fmin : R → R → R
  fmax : R → R → R
  sgrad : R → R

/-- Sum of a list under a `ScalarOps` record. -/
def lsum {R : Type} (O : ScalarOps R) (l : List R) : R :=
  l.foldr O.add O.zero

/-- `jnp.mean` over a flat list: sum divided by length. -/
def lmean {R : Type} (O : ScalarOps R) (l : List R) : R :=
  O.div (lsum O l) (O.ofNat l.length)

/-- `jnp.clip(x, lo, hi)`: largest-of with `lo`, then smallest-of with `hi`. -/
def clipO {R : Type} (O : ScalarOps R) (x lo hi : R) : R :=
  O.fmin (O.fmax x lo) hi

/-- Diagnostics record returned by `loss_policy_ppo_discrete`. -/
structure PolicyInfos (R : Type) where
  loss_policy : R
  entropy : List R
  kl_divergence : R
deriving Repr

/-- Diagnostics record returned by `loss_value_clip`. -/
structure ValueInfos (R : Type) where
  loss_value : R
deriving Repr

/-- Embedding of `loss_policy_ppo_discrete` (`src/rl/loss.py`, lines 7–45).
`entropyFn` abstracts the external `distrax.Categorical(logits=·).entropy()`
applied per time step; the leading `chex.assert_equal_shape` is modelled by the
`Option` guard. -/
def loss_policy_ppo_discrete {R : Type} (O : ScalarOps R) (entropyFn : List R → R)
    (logits : List (List R)) (log_probs log_probs_old gaes : List R)
    (clip_eps entropy_coef : R) : Option (R × PolicyInfos R) :=
  if log_probs.length = log_probs_old.length ∧ log_probs_old.length = gaes.length then
    let log_ratios := List.zipWith O.sub log_probs log_probs_old
    let ratios := log_ratios.map O.exp
    let ratios_clip := ratios.map
      (fun r => clipO O r (O.sub O.one clip_eps) (O.add O.one clip_eps))
    let loss_policy := O.neg (lmean O
      (List.zipWith O.fmin (List.zipWith O.mul ratios gaes)
        (List.zipWith O.mul ratios_clip gaes)))
    let entropy := logits.map entropyFn
    let loss_entropy := O.neg (lmean O entropy)
    let kl_divergence := O.sgrad (lmean O
      (List.zipWith (fun r lr => O.sub (O.sub r O.one) lr) ratios log_ratios))
    some (O.add loss_policy (O.mul entropy_coef loss_entropy),
      ⟨loss_policy, entropy, kl_divergence⟩)
  else none

/-- Embedding of `loss_value_clip` (`src/rl/loss.py`, lines 48–77). -/
def loss_value_clip {R : Type} (O : ScalarOps R)
    (values targets values_old : List R) (clip_eps : R) :
    Option (R × ValueInfos R) :=
  if values.length = values_old.length ∧ values_old.length = targets.length then
    let values_clip := List.zipWith O.add
      (List.zipWith (fun v vo => clipO O (O.sub v vo) (O.neg clip_eps) clip_eps)
        values values_old)
      values_old
    let loss_value_unclip := List.zipWith (fun v t => O.mul (O.sub v t) (O.sub v t))
      values targets
    let loss_value_clipped := List.zipWith (fun vc t => O.mul (O.sub vc t) (O.sub vc t))
      values_clip targets
    let loss_value := lmean O (List.zipWith O.fmax loss_value_unclip loss_value_clipped)
    some (loss_value, ⟨loss_value⟩)
  else none

/-- The genuine operations of a linearly ordered field, with an abstract
exponential `E` (machine `exp`) and identity stop-gradient (value semantics:
`stop_gradient` is the identity on values). -/
def fieldOps (R : Type) [LinearOrderedField R] (E : R → R) : ScalarOps R where
  zero := 0
  one := 1
  ofNat := fun n => (n : R)
  add := fun a b => a + b
  sub := fun a b => a - b
  mul := fun a b => a * b
  neg := fun a => -a
  div := fun a b => a / b
  exp := E
  fmin := fun a b => min a b
  fmax := fun a b => max a b
  sgrad := fun a => a

/-- Forward-mode dual-number operations over `ℚ`: a value paired with its
tangent.  `E` is the abstract exponential and `Ed` its derivative;
`stop_gradient` zeroes the tangent, which is exactly its JAX semantics. -/
def dualOps (E Ed : ℚ → ℚ) : ScalarOps (ℚ × ℚ) where
  zero := (0, 0)
  one := (1, 0)
  ofNat := fun n => ((n : ℚ), 0)
  add := fun a b => (a.1 + b.1, a.2 + b.2)
  sub := fun a b => (a.1 - b.1, a.2 - b.2)
  mul := fun a b => (a.1 * b.1, a.1 * b.2 + a.2 * b.1)
  neg := fun a => (-a.1, -a.2)
  div := fun a b => (a.1 / b.1, (a.2 * b.1 - a.1 * b.2) / (b.1 * b.1))
  exp := fun a => (E a.1, a.2 * Ed a.1)
  fmin := fun a b => if a.1 ≤ b.1 then a else b
  fmax := fun a b => if b.1 ≤ a.1 then a else b
  sgrad := fun a => (a.1, 0)

/-! ## The batching/reshaping lifts of `src/rl_tools/algos/factory.py` -/

/-- Environment slice `x[:, e]` of a `(T, E)`-shaped array, with an explicit
default for out-of-range indices (never reached under the shape invariants). -/
def colSlice {α : Type} (x : List (List α)) (e : Nat) (d : α) : List α :=
  x.map (fun row => row.getD e d)

/-- `jax.vmap(·, in_axes=1, out_axes=1)` output assembly: the per-slice outputs
(each of the same length) stacked so the mapped axis becomes axis 1. -/
def transposeU {β : Type} (cols : List (List β)) (d : β) : List (List β) :=
  (List.range (cols.headD []).length).map (fun l => cols.map (fun c => c.getD l d))

/-- One agent's work in the `parallel and vectorized` branch of
`process_experience_general_factory`: apply the single-instance function to
every environment slice with its own sub-key, mapped axis placed at axis 1. -/
def vmapEnv {α β : Type} (f : RKey → List α → List β) (keys : List RKey)
    (x : List (List α)) (da : α) (db : β) : List (List β) :=
  transposeU ((List.range keys.length).map
    (fun e => f (keys.getD e (RKey.base 0)) (colSlice x e da))) db

/-- The per-agent outputs of the `parallel and vectorized` branch
(`src/rl_tools/algos/factory.py`, lines 81–94): for each agent in mapping
order, split `E+1` sub-keys from the carried key (where `E` is that agent's
environment-axis width), keep sub-key 0 as the next carried key, and vmap the
single-instance function over the environment axis with sub-keys `1..E`. -/
def vpAgentOutputs {S α β : Type} (f : S → RKey → List α → List β) (st : S)
    (da : α) (db : β) : RKey → List (String × List (List α)) → List (List (List β))
  | _, [] => []
  | key, (_, x) :: rest =>
      let E := (x.headD []).length
      let new_keys := rsplit key (E + 1)
      vmapEnv (fun k slice => f st k slice) (new_keys.drop 1) x da db ::
        vpAgentOutputs f st da db (new_keys.headD key) rest

/-- The `parallel and vectorized` branch of `process_experience_general_factory`
(`src/rl_tools/algos/factory.py`, lines 81–100): per-agent vmapped outputs,
concatenated along axis 1 across agents, then reshaped to `(-1, *rest)`.
The experience is taken post-`stack_experiences` with one leaf per agent. -/
def processVP {S α β : Type} (f : S → RKey → List α → List β) (st : S)
    (key : RKey) (agents : List (String × List (List α))) (da : α) (db : β) :
    List β :=
  let outs := vpAgentOutputs f st da db key agents
  ((List.range (outs.headD []).length).map
    (fun l => (outs.map (fun o => o.getD l [])).flatten)).flatten

/-- The keys dictionary built by the `parallel and vectorized` branch
(`src/rl_tools/algos/factory.py`, lines 82–86): each input pair is an agent
name with its environment-axis width `obs.shape[1]`. -/
def vpKeys (key : RKey) : List (String × Nat) → List (String × List RKey)
  | [] => []
  | (a, E) :: rest =>
      let new_keys := rsplit key (E + 1)
      (a, new_keys.drop 1) :: vpKeys (new_keys.headD key) rest

/-- The per-agent keys drawn by `PPO.explore` (`src/rl/algos/ippo.py`,
lines 128–138): for each agent in mapping order,
`key, _k = jax.random.split(key)` and the agent uses `_k`. -/
def exploreKeys (key : RKey) : List String → List (String × RKey)
  | [] => []
  | a :: rest =>
      let ks := rsplit key 2
      (a, ks.getD 1 key) :: exploreKeys (ks.headD key) rest

/-- `jnp.expand_dims(·, axis=0)` on a single-instance input
(`input_fn` of `explore_general_factory` when not vectorized). -/
def expandDims0 {α : Type} (x : α) : List α := [x]

/-- `jnp.squeeze(·, axis=0)` (`output_fn` of `explore_general_factory` when not
vectorized): defined only when the leading axis has size 1. -/
def squeeze0 {β : Type} : List β → Option β
  | [b] => some b
  | _ => none

/-- `explore_general_factory` in the `vectorized=False, parallel=False` regime
(`src/rl_tools/algos/factory.py`, lines 45–66): insert a synthetic leading
axis of size 1, call the wrapped batched function, squeeze the axis out. -/
def explore_lift_single {P α β : Type} (f : P → RKey → List α → List β)
    (p : P) (k : RKey) (x : α) : Option β :=
  squeeze0 (f p k (expandDims0 x))

/-- `process_experience_general_factory` in the `vectorized=False,
parallel=False` regime (`src/rl_tools/algos/factory.py`, lines 128–129): the
wrapped function is called directly.  Modelled from the spec:
`stack_experiences` (`rl_tools/buffer.py`, not in `src/`) is the identity on an
already-stacked experience batch, per spec §3's batch invariant. -/
def process_lift_single {S E O : Type} (pf : S → RKey → E → O)
    (st : S) (k : RKey) (e : E) : O :=
  pf st k e

/-! ## The update loop of `PPO.update` (`src/rl/algos/ippo.py`, lines 143–159) -/

/-- One epoch of `PPO.update`'s loop: `key, _k = jax.random.split(key)`, one
`update_step_fn` call with `_k`, loss accumulation, and the latest
diagnostics. -/
def updateEpochStep {S E I : Type} (update_step : S → RKey → E → S × ℚ × I)
    (experiences : E) (acc : S × ℚ × RKey × Option I) : S × ℚ × RKey × Option I :=
  let ks := rsplit acc.2.2.1 2
  let step := update_step acc.1 (ks.getD 1 acc.2.2.1) experiences
  (step.1, acc.2.1 + step.2.1, ks.headD acc.2.2.1, some step.2.2)

/-- One update call (`PPO.update`, `src/rl/algos/ippo.py`, lines 143–159):
process the sampled batch into experiences, then run `num_epochs` chained-key
gradient steps accumulating the loss, and attach the epoch-averaged loss to
the last epoch's diagnostics.  `process_fn`, `update_step` and the
diagnostics-extension operation `ext` (`info["total_loss"] = loss`) are
abstract parameters; `none` models the Python failure when `num_epochs = 0`
(unbound `info`, division by zero). -/
def ppo_update {S Smp E I : Type} (process_fn : S → Smp → E)
    (update_step : S → RKey → E → S × ℚ × I) (ext : I → ℚ → I)
    (num_epochs : Nat) (state : S) (key : RKey) (sample : Smp) :
    Option (S × I) :=
  let experiences := process_fn state sample
  let r := (List.range num_epochs).foldl
    (fun acc _ => updateEpochStep update_step experiences acc)
    (state, 0, key, none)
  match r.2.2.2 with
  | none => none
  | some info => some (r.1, ext info (r.2.1 / (num_epochs : ℚ)))

/-- The sub-key drawn for epoch `i` inside `PPO.update`'s loop. -/
def epochKey (k : RKey) (i : Nat) : RKey :=
  RKey.sub (chainKey k i) 1

/-- The `TrainState` after `n` epochs of `PPO.update`'s loop, as a recurrence:
each epoch applies `update_step` to the previous state with that epoch's
sub-key. -/
def statesAfter {S E I : Type} (update_step : S → RKey → E → S × ℚ × I)
    (e : E) (k : RKey) (s : S) : Nat → S
  | 0 => s
  | n + 1 => (update_step (statesAfter update_step e k s n) (epochKey k n) e).1

/-- The loss produced by epoch `n` of `PPO.update`'s loop. -/
def lossAt {S E I : Type} (update_step : S → RKey → E → S × ℚ × I)
    (e : E) (k : RKey) (s : S) (n : Nat) : ℚ :=
  (update_step (statesAfter update_step e k s n) (epochKey k n) e).2.1

/-- The diagnostics produced by epoch `n` of `PPO.update`'s loop. -/
def infoAt {S E I : Type} (update_step : S → RKey → E → S × ℚ × I)
    (e : E) (k : RKey) (s : S) (n : Nat) : I :=
  (update_step (statesAfter update_step e k s n) (epochKey k n) e).2.2

/-! ## `compute_values_gaes` (`src/rl/algos/ippo.py`, lines 29–51) -/

/-- Embedding of `compute_values_gaes` for one agent and one environment:
value all observations plus the final recorded next-observation in one pass,
split into `values`/`next_values`, build `discounts = γ·(1-done)` and lift
`rewards` by a trailing singleton axis, and hand everything to the external
GAE routine `calc` (`calculate_gaes_targets` of `rl/timesteps.py`, not in
`src/`, abstract here).  `enc`/`valf` abstract the encoder and value head;
per-step value-head outputs are `(1,)`-shaped vectors. -/
def compute_values_gaes {EncP ValP O H : Type}
    (enc : EncP → O → H) (valf : ValP → H → List ℚ)
    (calcGT : List (List ℚ) → List (List ℚ) → List (List ℚ) → List (List ℚ) →
      ℚ → Bool → List (List ℚ) × List (List ℚ))
    (gamma lam : ℚ) (normalize : Bool) (pe : EncP) (pv : ValP)
    (observations next_observations : List O) (dones rewards : List ℚ) :
    List (List ℚ) × List (List ℚ) × List (List ℚ) :=
  let all_obs := observations ++ next_observations.drop (next_observations.length - 1)
  let all_values := all_obs.map (fun o => valf pv (enc pe o))
  let values := all_values.dropLast
  let next_values := all_values.drop 1
  let discounts := dones.map (fun d => [gamma * (1 - d)])
  let rewards' := rewards.map (fun r => [r])
  let gt := calcGT values next_values discounts rewards' lam normalize
  (gt.1, gt.2, values)

/-- The `values` argument fed to the GAE routine by `compute_values_gaes`. -/
def fedValues {EncP ValP O H : Type} (enc : EncP → O → H)
    (valf : ValP → H → List ℚ) (pe : EncP) (pv : ValP)
    (observations next_observations : List O) : List (List ℚ) :=
  ((observations ++ next_observations.drop (next_observations.length - 1)).map
    (fun o => valf pv (enc pe o))).dropLast

/-- The `next_values` argument fed to the GAE routine by
`compute_values_gaes`. -/
def fedNextValues {EncP ValP O H : Type} (enc : EncP → O → H)
    (valf : ValP → H → List ℚ) (pe : EncP) (pv : ValP)
    (observations next_observations : List O) : List (List ℚ) :=
  ((observations ++ next_observations.drop (next_observations.length - 1)).map
    (fun o => valf pv (enc pe o))).drop 1

/-! ## Helper lemmas on lists and keys -/

theorem headD_eq_getD {α : Type} (l : List α) (d : α) : l.headD d = l.getD 0 d := by
  cases l <;> rfl

theorem getD_range_map {β : Type} (g : Nat → β) (n i : Nat) (d : β) (h : i < n) :
    ((List.range n).map g).getD i d = g i := by
  simp [List.getD_eq_getElem?_getD, List.getElem?_map, List.getElem?_range, h]

theorem getD_map_of_lt {α β : Type} (f : α → β) (l : List α) (i : Nat) (d : β)
    (d' : α) (h : i < l.length) : (l.map f).getD i d = f (l.getD i d') := by
  simp [List.getD_eq_getElem?_getD, List.getElem?_map, List.getElem?_eq_getElem, h]

theorem getD_of_lt_length {α : Type} (l : List α) (i : Nat) (d : α)
    (h : i < l.length) : l.getD i d = l[i] := by
  simp [List.getD_eq_getElem?_getD, List.getElem?_eq_getElem, h]

theorem map_eq_range_getD {α β : Type} (g : α → β) (d : α) :
    ∀ l : List α, l.map g = (List.range l.length).map (fun i => g (l.getD i d)) := by
  intro l
  induction l with
  | nil => simp
  | cons a t ih =>
      simp only [List.map_cons, List.length_cons, List.range_succ_eq_map,
        List.map_map]
      refine congrArg (List.cons (g a)) ?_
      rw [ih]
      apply List.map_congr_left
      intro i _
      rfl

theorem range_map_congr {β : Type} (g h : Nat → β) (n : Nat)
    (he : ∀ i, i < n → g i = h i) :
    (List.range n).map g = (List.range n).map h := by
  apply List.map_congr_left
  intro i hi
  exact he i (List.mem_range.mp hi)

theorem flatten_uniform_length {β : Type} (W : Nat) :
    ∀ rows : List (List β), (∀ r ∈ rows, r.length = W) →
      rows.flatten.length = rows.length * W := by
  intro rows
  induction rows with
  | nil => simp
  | cons r rs ih =>
      intro h
      have hr : r.length = W := h r (by simp)
      have hrs := ih (fun x hx => h x (by simp [hx]))
      simp only [List.flatten_cons, List.length_append, hr, hrs, List.length_cons]
      ring

theorem flatten_uniform_getD {β : Type} (W : Nat) (d : β) :
    ∀ (rows : List (List β)) (i j : Nat), (∀ r ∈ rows, r.length = W) →
      i < rows.length → j < W →
      rows.flatten.getD (i * W + j) d = (rows.getD i []).getD j d := by
  intro rows
  induction rows with
  | nil => intro i j _ hi _; simp at hi
  | cons r rs ih =>
      intro i j h hi hj
      have hr : r.length = W := h r (by simp)
      cases i with
      | zero =>
          simp only [List.flatten_cons, Nat.zero_mul, Nat.zero_add]
          rw [List.getD_append _ _ _ _ (by omega)]
          rfl
      | succ i' =>
          simp only [List.flatten_cons]
          rw [List.getD_append_right _ _ _ _ (by
            have : W ≤ (i' + 1) * W := Nat.le_mul_of_pos_left W (Nat.succ_pos i')
            omega)]
          have hexp : (i' + 1) * W = i' * W + W := by ring
          have harith : (i' + 1) * W + j - r.length = i' * W + j := by
            rw [hr]; omega
          rw [harith]
          exact ih i' j (fun x hx => h x (by simp [hx])) (by simpa using hi) hj

theorem rsplit_headD (k : RKey) (n : Nat) (d : RKey) :
    (rsplit k (n + 1)).headD d = RKey.sub k 0 := by
  simp [rsplit, List.range_succ_eq_map]

theorem rsplit_drop_one (k : RKey) (n : Nat) :
    (rsplit k (n + 1)).drop 1 = (List.range n).map (fun e => RKey.sub k (e + 1)) := by
  simp [rsplit, List.range_succ_eq_map, List.map_map]

theorem chainKey_succ (n : Nat) : ∀ k : RKey, chainKey k (n + 1) = RKey.sub (chainKey k n) 0 := by
  induction n with
  | zero => intro k; rfl
  | succ m ih =>
      intro k
      show chainKey (RKey.sub k 0) (m + 1) = RKey.sub (chainKey (RKey.sub k 0) m) 0
      exact ih (RKey.sub k 0)

theorem rdepth_chainKey (n : Nat) : ∀ k : RKey, rdepth (chainKey k n) = rdepth k + n := by
  induction n with
  | zero => intro k; rfl
  | succ m ih =>
      intro k
      show rdepth (chainKey (RKey.sub k 0) m) = rdepth k + (m + 1)
      rw [ih (RKey.sub k 0)]
      simp [rdepth]
      omega

/-! ## Claims about the loss functions (`src/rl/loss.py`) -/

theorem lsum_fieldOps {R : Type} [LinearOrderedField R] (E : R → R) (l : List R) :
    lsum (fieldOps R E) l = l.sum := rfl

theorem lmean_fieldOps {R : Type} [LinearOrderedField R] (E : R → R) (l : List R) :
    lmean (fieldOps R E) l = l.sum / (l.length : R) := rfl

/-- C3: for equal-shaped `log_probs`, `log_probs_old`, `advantages`, the policy
loss returns `total = policy_loss + entropy_coef * entropy_loss` with
`policy_loss = -mean(min(ratio*adv, clip(ratio, 1-ε, 1+ε)*adv))` for
`ratio = exp(log_probs - log_probs_old)`,
`entropy_loss = -mean(categorical_entropy(logits))`, alongside a diagnostics
record carrying `policy_loss`, the per-step entropy, and
`kl_estimate = mean((ratio - 1) - (log_probs - log_probs_old))`; and, read over
forward-mode dual numbers, the returned `kl_estimate` carries zero tangent for
every input tangent — it does not contribute to gradients. -/
theorem loss_policy_ppo_discrete_spec_C3 :
    (∀ (R : Type) [LinearOrderedField R] (E : R → R) (entropyFn : List R → R)
        (logits : List (List R)) (lp lpo g : List R) (ce ec : R),
        lp.length = lpo.length → lpo.length = g.length →
        ∃ pl kl,
          loss_policy_ppo_discrete (fieldOps R E) entropyFn logits lp lpo g ce ec =
            some
              (pl + ec * -((logits.map entropyFn).sum / ((logits.map entropyFn).length : R)),
               ⟨pl, logits.map entropyFn, kl⟩) ∧
          pl = -((List.zipWith (fun a b => min a b)
                    (List.zipWith (fun r adv => r * adv)
                      ((List.zipWith (fun a b => a - b) lp lpo).map E) g)
                    (List.zipWith (fun r adv => r * adv)
                      (((List.zipWith (fun a b => a - b) lp lpo).map E).map
                        (fun r => min (max r (1 - ce)) (1 + ce))) g)).sum /
                  ((List.zipWith (fun a b => min a b)
                    (List.zipWith (fun r adv => r * adv)
                      ((List.zipWith (fun a b => a - b) lp lpo).map E) g)
                    (List.zipWith (fun r adv => r * adv)
                      (((List.zipWith (fun a b => a - b) lp lpo).map E).map
                        (fun r => min (max r (1 - ce)) (1 + ce))) g)).length : R)) ∧
          kl = (List.zipWith (fun r lr => r - 1 - lr)
                  ((List.zipWith (fun a b => a - b) lp lpo).map E)
                  (List.zipWith (fun a b => a - b) lp lpo)).sum /
                ((List.zipWith (fun r lr => r - 1 - lr)
                  ((List.zipWith (fun a b => a - b) lp lpo).map E)
                  (List.zipWith (fun a b => a - b) lp lpo)).length : R)) ∧
    (∀ (E Ed : ℚ → ℚ) (entropyFn : List (ℚ × ℚ) → ℚ × ℚ)
        (logits : List (List (ℚ × ℚ))) (lp lpo g : List (ℚ × ℚ)) (ce ec : ℚ × ℚ),
        lp.length = lpo.length → lpo.length = g.length →
        ∃ total infos,
          loss_policy_ppo_discrete (dualOps E Ed) entropyFn logits lp lpo g ce ec =
            some (total, infos) ∧ infos.kl_divergence.2 = 0) := by
  constructor
  · intro R _ E entropyFn logits lp lpo g ce ec h1 h2
    rw [loss_policy_ppo_discrete, if_pos ⟨h1, h2⟩]
    refine ⟨_, _, rfl, ?_, ?_⟩ <;> rfl
  · intro E Ed entropyFn logits lp lpo g ce ec h1 h2
    rw [loss_policy_ppo_discrete, if_pos ⟨h1, h2⟩]
    exact ⟨_, _, rfl, rfl⟩

/-- Witness for C3 at a concrete input. -/
theorem loss_policy_ppo_discrete_spec_C3_witness :
    ([(0 : ℚ), 1].length = [(0 : ℚ), 0].length ∧ [(0 : ℚ), 0].length = [(1 : ℚ), 2].length) ∧
    (∃ pl kl,
      loss_policy_ppo_discrete (fieldOps ℚ id) (fun l => l.sum)
          [[(1 : ℚ)]] [0, 1] [0, 0] [1, 2] (1/5) (1/2) =
        some
          (pl + (1/2) * -((([[(1 : ℚ)]].map (fun l => l.sum)).sum /
              (([[(1 : ℚ)]].map (fun l => l.sum)).length : ℚ))),
           ⟨pl, [[(1 : ℚ)]].map (fun l => l.sum), kl⟩) ∧
      pl = -((List.zipWith (fun a b => min a b)
                (List.zipWith (fun r adv => r * adv)
                  ((List.zipWith (fun a b => a - b) [(0 : ℚ), 1] [0, 0]).map id) [1, 2])
                (List.zipWith (fun r adv => r * adv)
                  (((List.zipWith (fun a b => a - b) [(0 : ℚ), 1] [0, 0]).map id).map
                    (fun r => min (max r (1 - 1/5)) (1 + 1/5))) [1, 2])).sum /
              ((List.zipWith (fun a b => min a b)
                (List.zipWith (fun r adv => r * adv)
                  ((List.zipWith (fun a b => a - b) [(0 : ℚ), 1] [0, 0]).map id) [1, 2])
                (List.zipWith (fun r adv => r * adv)
                  (((List.zipWith (fun a b => a - b) [(0 : ℚ), 1] [0, 0]).map id).map
                    (fun r => min (max r (1 - 1/5)) (1 + 1/5))) [1, 2])).length : ℚ)) ∧
      kl = (List.zipWith (fun r lr => r - 1 - lr)
              ((List.zipWith (fun a b => a - b) [(0 : ℚ), 1] [0, 0]).map id)
              (List.zipWith (fun a b => a - b) [(0 : ℚ), 1] [0, 0])).sum /
            ((List.zipWith (fun r lr => r - 1 - lr)
              ((List.zipWith (fun a b => a - b) [(0 : ℚ), 1] [0, 0]).map id)
              (List.zipWith (fun a b => a - b) [(0 : ℚ), 1] [0, 0])).length : ℚ)) :=
  ⟨⟨rfl, rfl⟩,
    loss_policy_ppo_discrete_spec_C3.1 ℚ id (fun l => l.sum)
      [[(1 : ℚ)]] [0, 1] [0, 0] [1, 2] (1/5) (1/2) rfl rfl⟩

theorem zipWith_ext {α β γ : Type} (f g : α → β → γ) (h : ∀ a b, f a b = g a b) :
    ∀ (l₁ : List α) (l₂ : List β), List.zipWith f l₁ l₂ = List.zipWith g l₁ l₂ := by
  intro l₁
  induction l₁ with
  | nil => intro l₂; simp
  | cons a t ih =>
      intro l₂
      cases l₂ with
      | nil => simp
      | cons b u => simp [h a b, ih u]

theorem zipWith_zipWith_right_same {α β γ δ : Type} (g : γ → β → δ) (f : α → β → γ) :
    ∀ (l₁ : List α) (l₂ : List β),
      List.zipWith g (List.zipWith f l₁ l₂) l₂ =
        List.zipWith (fun a b => g (f a b) b) l₁ l₂ := by
  intro l₁
  induction l₁ with
  | nil => intro l₂; simp
  | cons a t ih =>
      intro l₂
      cases l₂ with
      | nil => simp
      | cons b u => simp [ih u]

/-- C4: for equal-shaped `values`, `targets`, `values_old`, the value loss is
`mean(max((values - targets)², (values_old + clip(values - values_old, -ε, ε)
- targets)²))`, returned together with the diagnostics record. -/
theorem loss_value_clip_spec_C4 :
    ∀ (R : Type) [LinearOrderedField R] (E : R → R)
      (values targets values_old : List R) (ce : R),
      values.length = values_old.length → values_old.length = targets.length →
      ∃ m, loss_value_clip (fieldOps R E) values targets values_old ce =
          some (m, ⟨m⟩) ∧
        m = (List.zipWith (fun a b => max a b)
              (List.zipWith (fun v t => (v - t) ^ 2) values targets)
              (List.zipWith (fun vc t => (vc - t) ^ 2)
                (List.zipWith (fun v vo => vo + min (max (v - vo) (-ce)) ce)
                  values values_old)
                targets)).sum /
            ((List.zipWith (fun a b => max a b)
              (List.zipWith (fun v t => (v - t) ^ 2) values targets)
              (List.zipWith (fun vc t => (vc - t) ^ 2)
                (List.zipWith (fun v vo => vo + min (max (v - vo) (-ce)) ce)
                  values values_old)
                targets)).length : R) := by
  intro R _ E values targets values_old ce h1 h2
  rw [loss_value_clip, if_pos ⟨h1, h2⟩]
  refine ⟨_, rfl, ?_⟩
  simp only [lmean, lsum, fieldOps, clipO]
  have hvc :
      List.zipWith (fun a b => a + b)
        (List.zipWith (fun v vo => min (max (v - vo) (-ce)) ce) values values_old)
        values_old =
      List.zipWith (fun v vo => vo + min (max (v - vo) (-ce)) ce) values values_old := by
    rw [zipWith_zipWith_right_same]
    exact zipWith_ext _ _ (fun a b => add_comm _ _) values values_old
  rw [hvc]
  have hsq1 :
      List.zipWith (fun v t => (v - t) * (v - t)) values targets =
        List.zipWith (fun v t => (v - t) ^ 2) values targets :=
    zipWith_ext _ _ (fun a b => (pow_two _).symm) values targets
  have hsq2 :
      List.zipWith (fun vc t => (vc - t) * (vc - t))
        (List.zipWith (fun v vo => vo + min (max (v - vo) (-ce)) ce) values values_old)
        targets =
      List.zipWith (fun vc t => (vc - t) ^ 2)
        (List.zipWith (fun v vo => vo + min (max (v - vo) (-ce)) ce) values values_old)
        targets :=
    zipWith_ext _ _ (fun a b => (pow_two _).symm) _ targets
  rw [hsq1, hsq2]
  rfl

/-- Witness for C4 at a concrete input. -/
theorem loss_value_clip_spec_C4_witness :
    ([(1 : ℚ), 2].length = [(1 : ℚ), 2].length ∧ [(1 : ℚ), 2].length = [(1 : ℚ), 1].length) ∧
    (∃ m, loss_value_clip (fieldOps ℚ id) [(1 : ℚ), 2] [1, 1] [1, 2] (1/2) =
        some (m, ⟨m⟩) ∧
      m = (List.zipWith (fun a b => max a b)
            (List.zipWith (fun v t => (v - t) ^ 2) [(1 : ℚ), 2] [1, 1])
            (List.zipWith (fun vc t => (vc - t) ^ 2)
              (List.zipWith (fun v vo => vo + min (max (v - vo) (-(1/2 : ℚ))) (1/2))
                [(1 : ℚ), 2] [1, 2])
              [1, 1])).sum /
          ((List.zipWith (fun a b => max a b)
            (List.zipWith (fun v t => (v - t) ^ 2) [(1 : ℚ), 2] [1, 1])
            (List.zipWith (fun vc t => (vc - t) ^ 2)
              (List.zipWith (fun v vo => vo + min (max (v - vo) (-(1/2 : ℚ))) (1/2))
                [(1 : ℚ), 2] [1, 2])
              [1, 1])).length : ℚ)) :=
  ⟨⟨rfl, rfl⟩, loss_value_clip_spec_C4 ℚ id [1, 2] [1, 1] [1, 2] (1/2) rfl rfl⟩

/-- C8: a shape mismatch among the co-indexed inputs of either loss function
makes the call fail immediately (modelled as `none`) instead of computing a
result by broadcasting or truncation. -/
theorem loss_shape_mismatch_C8 :
    (∀ (R : Type) (O : ScalarOps R) (entropyFn : List R → R)
        (logits : List (List R)) (lp lpo g : List R) (ce ec : R),
        ¬(lp.length = lpo.length ∧ lpo.length = g.length) →
        loss_policy_ppo_discrete O entropyFn logits lp lpo g ce ec = none) ∧
    (∀ (R : Type) (O : ScalarOps R) (values targets values_old : List R) (ce : R),
        ¬(values.length = values_old.length ∧ values_old.length = targets.length) →
        loss_value_clip O values targets values_old ce = none) := by
  constructor
  · intro R O entropyFn logits lp lpo g ce ec h
    rw [loss_policy_ppo_discrete, if_neg h]
  · intro R O values targets values_old ce h
    rw [loss_value_clip, if_neg h]

/-- Witness for C8 at concrete mismatched inputs. -/
theorem loss_shape_mismatch_C8_witness :
    (¬(([(0 : ℚ), 1].length = [(0 : ℚ)].length ∧ [(0 : ℚ)].length = [(1 : ℚ)].length)) ∧
      loss_policy_ppo_discrete (fieldOps ℚ id) (fun l => l.sum) [] [0, 1] [0] [1]
        (1/5) (1/2) = none) ∧
    (¬(([(0 : ℚ)].length = [(0 : ℚ), 1].length ∧ [(0 : ℚ), 1].length = [(1 : ℚ)].length)) ∧
      loss_value_clip (fieldOps ℚ id) [(0 : ℚ)] [1] [0, 1] (1/2) = none) :=
  ⟨⟨by decide, loss_shape_mismatch_C8.1 ℚ (fieldOps ℚ id) (fun l => l.sum) [] [0, 1] [0] [1]
      (1/5) (1/2) (by decide)⟩,
   ⟨by decide, loss_shape_mismatch_C8.2 ℚ (fieldOps ℚ id) [0] [1] [0, 1] (1/2) (by decide)⟩⟩

theorem min_mul_clip_self {R : Type} [LinearOrderedField R] (E : R → R)
    (hE : E 0 = 1) (ce : R) (hce : 0 ≤ ce) :
    ∀ (lp g : List R), lp.length = g.length →
      List.zipWith (fun a b => min a b)
        (List.zipWith (fun a b => a * b)
          ((List.zipWith (fun a b => a - b) lp lp).map E) g)
        (List.zipWith (fun a b => a * b)
          (((List.zipWith (fun a b => a - b) lp lp).map E).map
            (fun x => min (max x (1 - ce)) (1 + ce))) g) = g := by
  intro lp
  induction lp with
  | nil =>
      intro g hlen
      simp at hlen
      simp [List.length_eq_zero.mp hlen.symm]
  | cons a t ih =>
      intro g hlen
      cases g with
      | nil => simp at hlen
      | cons b u =>
          simp only [List.zipWith_cons_cons, List.map_cons]
          have h0 : E (a - a) = 1 := by rw [sub_self]; exact hE
          have hclip : min (max (1 : R) (1 - ce)) (1 + ce) = 1 := by
            rw [max_eq_left (by linarith), min_eq_left (by linarith)]
          rw [h0, hclip, one_mul, min_self]
          exact congrArg (List.cons b) (ih u (by simpa using hlen))

/-- C7: when `log_probs` equals `log_probs_old` elementwise (so the ratio is 1
everywhere), the clipped policy-loss term in the diagnostics record equals
exactly `-mean(advantages)`. -/
theorem policy_loss_ratio_one_C7 :
    ∀ (R : Type) [LinearOrderedField R] (E : R → R) (entropyFn : List R → R)
      (logits : List (List R)) (lp g : List R) (ce ec : R),
      E 0 = 1 → 0 ≤ ce → lp.length = g.length →
      ∃ total infos,
        loss_policy_ppo_discrete (fieldOps R E) entropyFn logits lp lp g ce ec =
          some (total, infos) ∧
        infos.loss_policy = -(g.sum / (g.length : R)) := by
  intro R _ E entropyFn logits lp g ce ec hE hce hlen
  rw [loss_policy_ppo_discrete, if_pos ⟨rfl, hlen⟩]
  refine ⟨_, _, rfl, ?_⟩
  simp only [lmean, lsum, fieldOps, clipO]
  rw [min_mul_clip_self E hE ce hce lp g hlen]
  rfl

/-- Witness for C7 at a concrete input. -/
theorem policy_loss_ratio_one_C7_witness :
    ((fun x : ℚ => 1 + x) 0 = 1) ∧ ((0 : ℚ) ≤ 1/5) ∧
      ([(3 : ℚ), 4].length = [(1 : ℚ), 5].length) ∧
    (∃ total infos,
      loss_policy_ppo_discrete (fieldOps ℚ (fun x => 1 + x)) (fun l => l.sum)
          [[(1 : ℚ)]] [3, 4] [3, 4] [1, 5] (1/5) (1/2) =
        some (total, infos) ∧
      infos.loss_policy = -(([(1 : ℚ), 5].sum) / (([(1 : ℚ), 5].length) : ℚ))) :=
  ⟨by norm_num, by norm_num, rfl,
    policy_loss_ratio_one_C7 ℚ (fun x => 1 + x) (fun l => l.sum) [[(1 : ℚ)]]
      [3, 4] [1, 5] (1/5) (1/2) (by norm_num) (by norm_num) rfl⟩

/-! ## Claims about `compute_values_gaes` (`src/rl/algos/ippo.py`) -/

/-- C9: `compute_values_gaes` hands the GAE/target routine the discount
sequence `γ·(1 - done[t])` for every `t`, and the rewards unchanged apart from
a trailing singleton axis. -/
theorem compute_values_gaes_feeds_C9 :
    ∀ (EncP ValP O H : Type) (enc : EncP → O → H) (valf : ValP → H → List ℚ)
      (calcGT : List (List ℚ) → List (List ℚ) → List (List ℚ) → List (List ℚ) →
        ℚ → Bool → List (List ℚ) × List (List ℚ))
      (gamma lam : ℚ) (normalize : Bool) (pe : EncP) (pv : ValP)
      (obs nobs : List O) (dones rewards : List ℚ),
      compute_values_gaes enc valf calcGT gamma lam normalize pe pv obs nobs
          dones rewards =
        ((calcGT (fedValues enc valf pe pv obs nobs)
            (fedNextValues enc valf pe pv obs nobs)
            (dones.map (fun d => [gamma * (1 - d)]))
            (rewards.map (fun r => [r])) lam normalize).1,
         (calcGT (fedValues enc valf pe pv obs nobs)
            (fedNextValues enc valf pe pv obs nobs)
            (dones.map (fun d => [gamma * (1 - d)]))
            (rewards.map (fun r => [r])) lam normalize).2,
         fedValues enc valf pe pv obs nobs) ∧
      (∀ t, t < dones.length →
        (dones.map (fun d => [gamma * (1 - d)])).getD t [] =
          [gamma * (1 - dones.getD t 0)]) ∧
      (∀ t, t < rewards.length →
        (rewards.map (fun r => [r])).getD t [] = [rewards.getD t 0]) := by
  intro EncP ValP O H enc valf calcGT gamma lam normalize pe pv obs nobs dones rewards
  refine ⟨rfl, ?_, ?_⟩
  · intro t ht
    exact getD_map_of_lt _ dones t [] 0 ht
  · intro t ht
    exact getD_map_of_lt _ rewards t [] 0 ht

/-- Witness for C9 at a concrete input. -/
theorem compute_values_gaes_feeds_C9_witness :
    ((0 : Nat) < [(0 : ℚ), 1].length) ∧
    ([(0 : ℚ), 1].map (fun d => [(1/2 : ℚ) * (1 - d)])).getD 0 [] =
      [(1/2 : ℚ) * (1 - [(0 : ℚ), 1].getD 0 0)] :=
  ⟨by decide,
    (compute_values_gaes_feeds_C9 ℚ ℚ ℚ ℚ (fun p o => o + p) (fun p h => [h * p])
      (fun v nv d r _ _ => (d, r)) (1/2) (95/100) false 1 2 [10, 20] [99]
      [0, 1] [3, 4]).2.1 0 (by decide)⟩

/-- C10: the `next_values[t]` fed to the GAE computation is the value head on
`observations[t+1]` whenever `t+1 < T`; of the recorded next-observations only
the last is ever used, so `compute_values_gaes` cannot distinguish two
next-observation sequences that agree on their final entry. -/
theorem next_values_source_C10 :
    ∀ (EncP ValP O H : Type) (enc : EncP → O → H) (valf : ValP → H → List ℚ)
      (pe : EncP) (pv : ValP) (obs : List O),
      (∀ (nobs : List O) (d0 : O) (t : Nat), t + 1 < obs.length →
        (fedNextValues enc valf pe pv obs nobs).getD t [] =
          valf pv (enc pe (obs.getD (t + 1) d0))) ∧
      (∀ (calcGT : List (List ℚ) → List (List ℚ) → List (List ℚ) → List (List ℚ) →
            ℚ → Bool → List (List ℚ) × List (List ℚ))
          (gamma lam : ℚ) (normalize : Bool) (dones rewards : List ℚ)
          (l₁ l₂ : List O) (x : O),
        compute_values_gaes enc valf calcGT gamma lam normalize pe pv obs
            (l₁ ++ [x]) dones rewards =
          compute_values_gaes enc valf calcGT gamma lam normalize pe pv obs
            (l₂ ++ [x]) dones rewards) := by
  intro EncP ValP O H enc valf pe pv obs
  constructor
  · intro nobs d0 t ht
    rw [fedNextValues, List.getD_eq_getElem?_getD, List.getElem?_drop,
      List.getElem?_map, List.getElem?_append_left (by omega), Nat.add_comm 1 t,
      List.getElem?_eq_getElem (by omega : t + 1 < obs.length)]
    rw [getD_of_lt_length obs (t + 1) d0 (by omega)]
    simp only [Option.map_some', Option.getD_some]
  · intro calcGT gamma lam normalize dones rewards l₁ l₂ x
    have hlast : ∀ l : List O, (l ++ [x]).drop ((l ++ [x]).length - 1) = [x] := by
      intro l
      have hlen : (l ++ [x]).length - 1 = l.length := by simp
      rw [hlen, List.drop_left]
    simp only [compute_values_gaes, hlast]

/-- Witness for C10 at a concrete input. -/
theorem next_values_source_C10_witness :
    ((0 : Nat) + 1 < [(10 : ℚ), 20, 30].length) ∧
    (fedNextValues (fun (p : ℚ) (o : ℚ) => o + p) (fun (p : ℚ) (h : ℚ) => [h * p])
        1 2 [10, 20, 30] [99]).getD 0 [] =
      (fun (p : ℚ) (h : ℚ) => [h * p]) 2
        ((fun (p : ℚ) (o : ℚ) => o + p) 1 ([(10 : ℚ), 20, 30].getD 1 0)) :=
  ⟨by decide,
    (next_values_source_C10 ℚ ℚ ℚ ℚ (fun p o => o + p) (fun p h => [h * p])
      1 2 [10, 20, 30]).1 [99] 0 0 (by decide)⟩

/-! ## Claims about `PPO.update` -/

theorem rsplit_two_getD (c d : RKey) : (rsplit c 2).getD 1 d = RKey.sub c 1 := rfl

theorem rsplit_two_headD (c d : RKey) : (rsplit c 2).headD d = RKey.sub c 0 := rfl

theorem updateLoop_char {S E I : Type} (f : S → RKey → E → S × ℚ × I) (e : E)
    (k : RKey) (s : S) :
    ∀ n : Nat,
      (List.range n).foldl (fun acc _ => updateEpochStep f e acc) (s, 0, k, none) =
        (statesAfter f e k s n, ∑ i ∈ Finset.range n, lossAt f e k s i,
         chainKey k n, if n = 0 then none else some (infoAt f e k s (n - 1))) := by
  intro n
  induction n with
  | zero => simp [statesAfter, chainKey]
  | succ n ih =>
      rw [List.range_succ, List.foldl_append, ih]
      simp only [List.foldl_cons, List.foldl_nil, updateEpochStep]
      rw [rsplit_two_getD, rsplit_two_headD, ← chainKey_succ]
      refine Prod.ext rfl (Prod.ext ?_ (Prod.ext rfl ?_))
      · exact (Finset.sum_range_succ _ n).symm
      · simp [lossAt, infoAt, epochKey]

/-- C5: for positive `num_epochs`, one `PPO.update` call performs exactly
`num_epochs` gradient steps — the returned `TrainState` is the `num_epochs`-th
iterate of `update_step_fn`, each epoch drawing a fresh (pairwise-distinct)
sub-key from the chained root key — and the returned diagnostics are the last
epoch's diagnostics extended with the sum of the per-epoch losses divided by
`num_epochs`. -/
theorem ppo_update_spec_C5 :
    ∀ (S Smp E I : Type) (process_fn : S → Smp → E)
      (update_step : S → RKey → E → S × ℚ × I) (ext : I → ℚ → I)
      (n : Nat) (s : S) (k : RKey) (sample : Smp),
      0 < n →
      ppo_update process_fn update_step ext n s k sample =
        some (statesAfter update_step (process_fn s sample) k s n,
          ext (infoAt update_step (process_fn s sample) k s (n - 1))
            ((∑ i ∈ Finset.range n, lossAt update_step (process_fn s sample) k s i) /
              (n : ℚ))) ∧
      (∀ i j : Nat, i ≠ j → epochKey k i ≠ epochKey k j) := by
  intro S Smp E I pf f ext n s k smp hn
  constructor
  · simp only [ppo_update]
    rw [updateLoop_char]
    simp only [Nat.pos_iff_ne_zero.mp hn, if_false]
  · have hd : ∀ m, rdepth (epochKey k m) = rdepth k + m + 1 := by
      intro m
      simp [epochKey, rdepth, rdepth_chainKey]
    intro i j hij hc
    have hcd := congrArg rdepth hc
    rw [hd i, hd j] at hcd
    omega

/-- Witness for C5 at a concrete input. -/
theorem ppo_update_spec_C5_witness :
    (0 < 2) ∧
    ppo_update (fun (s : ℚ) (_ : ℚ) => s)
        (fun (s : ℚ) (_ : RKey) (e : ℚ) => (s + e, s, s * 2))
        (fun (i : ℚ) (q : ℚ) => i + q) 2 1 (RKey.base 0) 3 =
      some (statesAfter (fun (s : ℚ) (_ : RKey) (e : ℚ) => (s + e, s, s * 2)) 1
          (RKey.base 0) 1 2,
        infoAt (fun (s : ℚ) (_ : RKey) (e : ℚ) => (s + e, s, s * 2)) 1
            (RKey.base 0) 1 (2 - 1) +
          (∑ i ∈ Finset.range 2,
              lossAt (fun (s : ℚ) (_ : RKey) (e : ℚ) => (s + e, s, s * 2)) 1
                (RKey.base 0) 1 i) / ((2 : ℕ) : ℚ)) :=
  ⟨by decide,
    (ppo_update_spec_C5 ℚ ℚ ℚ ℚ (fun s _ => s)
      (fun s _ e => (s + e, s, s * 2)) (fun i q => i + q) 2 1 (RKey.base 0) 3
      (by decide)).1⟩

/-! ## Claim about the degenerate (one env, one agent) lifts -/

/-- C6: with `n_envs = 1` and `n_agents = 1` both lifts are transparent.  The
experience-processing lift calls the wrapped function directly; the
action-sampling lift, applied to a wrapped batched layer `f` that maps a
singleton batch to the singleton batch of the single-instance function `g`
(spec §4.3's per-index batched numeric layer), returns exactly `g`'s output on
the same input and key. -/
theorem degenerate_lift_transparent_C6 :
    ∀ (P α β S Ex Out : Type) (f : P → RKey → List α → List β)
      (g : P → RKey → α → β),
      (∀ p k x, f p k [x] = [g p k x]) →
      (∀ (p : P) (k : RKey) (x : α),
        explore_lift_single f p k x = some (g p k x)) ∧
      (∀ (pf : S → RKey → Ex → Out) (st : S) (k : RKey) (e : Ex),
        process_lift_single pf st k e = pf st k e) := by
  intro P α β S Ex Out f g h
  constructor
  · intro p k x
    rw [explore_lift_single, expandDims0, h]
    rfl
  · intro pf st k e
    rfl

/-- Witness for C6 at a concrete input. -/
theorem degenerate_lift_transparent_C6_witness :
    (∀ (p : ℚ) (k : RKey) (x : ℚ),
      (fun (p : ℚ) (_ : RKey) (l : List ℚ) => l.map (fun v => v + p)) p k [x] =
        [(fun (p : ℚ) (_ : RKey) (x : ℚ) => x + p) p k x]) ∧
    explore_lift_single (fun (p : ℚ) (_ : RKey) (l : List ℚ) => l.map (fun v => v + p))
        2 (RKey.base 0) 5 =
      some ((fun (p : ℚ) (_ : RKey) (x : ℚ) => x + p) 2 (RKey.base 0) 5) ∧
    process_lift_single (fun (s : ℚ) (_ : RKey) (e : ℚ) => s * e) 3 (RKey.base 0) 7 =
      (fun (s : ℚ) (_ : RKey) (e : ℚ) => s * e) 3 (RKey.base 0) 7 :=
  ⟨fun _ _ _ => rfl,
   (degenerate_lift_transparent_C6 ℚ ℚ ℚ ℚ ℚ ℚ
      (fun p _ l => l.map (fun v => v + p)) (fun p _ x => x + p)
      (fun _ _ _ => rfl)).1 2 (RKey.base 0) 5,
   (degenerate_lift_transparent_C6 ℚ ℚ ℚ ℚ ℚ ℚ
      (fun p _ l => l.map (fun v => v + p)) (fun p _ x => x + p)
      (fun _ _ _ => rfl)).2 (fun s _ e => s * e) 3 (RKey.base 0) 7⟩

/-! ## Claims about the random sub-key derivation -/

/-- C2 (amended): in both lifts the sub-key for an (agent, environment) pair
is a pure function of the root key, the agent's POSITION in the mapping's
iteration order, and the environment index — independent of the environment
count and of all later agents, as the append decomposition shows — but it is
positional, so it changes when agents before it are added, removed or
reordered. -/
theorem subkey_positional_C2 :
    (∀ (key : RKey) (agents : List (String × Nat)) (i e : Nat) (dK : RKey),
      i < agents.length → e < (agents.getD i ("", 0)).2 →
      ((vpKeys key agents).getD i ("", [])).1 = (agents.getD i ("", 0)).1 ∧
      ((vpKeys key agents).getD i ("", [])).2.getD e dK =
        RKey.sub (chainKey key i) (e + 1)) ∧
    (∀ (key : RKey) (l₁ l₂ : List (String × Nat)),
      vpKeys key (l₁ ++ l₂) =
        vpKeys key l₁ ++ vpKeys (chainKey key l₁.length) l₂) ∧
    (∀ (key : RKey) (names : List String) (j : Nat) (dN : String) (dK : RKey),
      j < names.length →
      (exploreKeys key names).getD j (dN, dK) =
        (names.getD j dN, RKey.sub (chainKey key j) 1)) ∧
    (∀ (key : RKey) (n₁ n₂ : List String),
      exploreKeys key (n₁ ++ n₂) =
        exploreKeys key n₁ ++ exploreKeys (chainKey key n₁.length) n₂) := by
  refine ⟨?_, ?_, ?_, ?_⟩
  · intro key agents
    induction agents generalizing key with
    | nil => intro i e dK hi _; simp at hi
    | cons p rest ih =>
        intro i e dK hi he
        obtain ⟨nm, E⟩ := p
        cases i with
        | zero =>
            refine ⟨rfl, ?_⟩
            show ((rsplit key (E + 1)).drop 1).getD e dK = RKey.sub (chainKey key 0) (e + 1)
            rw [rsplit_drop_one, chainKey]
            exact getD_range_map _ E e dK (by simpa using he)
        | succ i' =>
            have hstep : vpKeys key ((nm, E) :: rest) =
                (nm, (rsplit key (E + 1)).drop 1) ::
                  vpKeys (RKey.sub key 0) rest := by
              rw [vpKeys, rsplit_headD]
            rw [hstep]
            have := ih (RKey.sub key 0) i' e dK (by simpa using hi) (by simpa using he)
            simpa using this
  · intro key l₁
    induction l₁ generalizing key with
    | nil => intro l₂; simp [vpKeys, chainKey]
    | cons p rest ih =>
        intro l₂
        obtain ⟨nm, E⟩ := p
        rw [List.cons_append, vpKeys, vpKeys, rsplit_headD, List.cons_append]
        exact congrArg (List.cons _) (ih (RKey.sub key 0) l₂)
  · intro key names
    induction names generalizing key with
    | nil => intro j dN dK hj; simp at hj
    | cons nm rest ih =>
        intro j dN dK hj
        have hstep : exploreKeys key (nm :: rest) =
            (nm, RKey.sub key 1) :: exploreKeys (RKey.sub key 0) rest := by
          rw [exploreKeys, rsplit_two_getD, rsplit_two_headD]
        rw [hstep]
        cases j with
        | zero => rfl
        | succ j' =>
            have := ih (RKey.sub key 0) j' dN dK (by simpa using hj)
            simpa using this
  · intro key n₁
    induction n₁ generalizing key with
    | nil => intro n₂; simp [exploreKeys, chainKey]
    | cons nm rest ih =>
        intro n₂
        rw [List.cons_append, exploreKeys, exploreKeys, rsplit_two_headD,
          List.cons_append]
        exact congrArg (List.cons _) (ih (RKey.sub key 0) n₂)

/-- Witness for C2 (amended) at concrete inputs. -/
theorem subkey_positional_C2_witness :
    ((1 : Nat) < [("a", 2), ("b", 2)].length) ∧
    ((0 : Nat) < ([("a", 2), ("b", 2)].getD 1 ("", 0)).2) ∧
    (((vpKeys (RKey.base 0) [("a", 2), ("b", 2)]).getD 1 ("", [])).1 =
        ([("a", 2), ("b", 2)].getD 1 ("", 0)).1 ∧
      ((vpKeys (RKey.base 0) [("a", 2), ("b", 2)]).getD 1 ("", [])).2.getD 0 (RKey.base 9) =
        RKey.sub (chainKey (RKey.base 0) 1) (0 + 1)) :=
  ⟨by decide, by decide,
    subkey_positional_C2.1 (RKey.base 0) [("a", 2), ("b", 2)] 1 0 (RKey.base 9)
      (by decide) (by decide)⟩

/-- Counterexample for C2 as stated: removing the preceding agent `"a"`
changes agent `"b"`'s sub-key for environment 0 under the same root key. -/
theorem subkey_positional_C2_counterexample :
    ((vpKeys (RKey.base 0) [("a", 1), ("b", 1)]).getD 1 ("", [])).2.getD 0 (RKey.base 9) ≠
      ((vpKeys (RKey.base 0) [("b", 1)]).getD 0 ("", [])).2.getD 0 (RKey.base 9) := by
  decide

/-! ## Claim about the vectorized+parallel experience-processing lift -/

theorem getD_mem_of_lt {α : Type} (l : List α) (n : Nat) (d : α)
    (h : n < l.length) : l.getD n d ∈ l := by
  rw [List.getD_eq_getElem _ _ h]
  exact List.getElem_mem h

theorem vmapEnv_eq {α β : Type} (f : RKey → List α → List β) (keys : List RKey)
    (x : List (List α)) (da : α) (db : β) (E L : Nat)
    (hk : keys.length = E) (hE : 0 < E)
    (hf : ∀ k s, (f k s).length = L) :
    vmapEnv f keys x da db =
      (List.range L).map (fun l => (List.range E).map
        (fun e => (f (keys.getD e (RKey.base 0)) (colSlice x e da)).getD l db)) := by
  subst hk
  rw [vmapEnv, transposeU]
  have hcols : (((List.range keys.length).map
      (fun e => f (keys.getD e (RKey.base 0)) (colSlice x e da))).headD []).length = L := by
    rw [headD_eq_getD, getD_range_map _ keys.length 0 [] hE]
    exact hf _ _
  rw [hcols]
  apply range_map_congr
  intro l _
  rw [List.map_map]
  rfl

theorem vpAgentOutputs_length {S α β : Type} (f : S → RKey → List α → List β)
    (st : S) (da : α) (db : β) :
    ∀ (agents : List (String × List (List α))) (key : RKey),
      (vpAgentOutputs f st da db key agents).length = agents.length := by
  intro agents
  induction agents with
  | nil => intro key; rfl
  | cons p rest ih =>
      intro key
      obtain ⟨nm, x⟩ := p
      rw [vpAgentOutputs]
      simp [ih]

theorem vpAgentOutputs_getD {S α β : Type} (f : S → RKey → List α → List β)
    (st : S) (da : α) (db : β) :
    ∀ (agents : List (String × List (List α))) (key : RKey) (a : Nat),
      a < agents.length →
      (vpAgentOutputs f st da db key agents).getD a [] =
        vmapEnv (fun k slice => f st k slice)
          ((List.range (((agents.getD a ("", [])).2.headD []).length)).map
            (fun e => RKey.sub (chainKey key a) (e + 1)))
          (agents.getD a ("", [])).2 da db := by
  intro agents
  induction agents with
  | nil => intro key a ha; simp at ha
  | cons p rest ih =>
      intro key a ha
      obtain ⟨nm, x⟩ := p
      rw [vpAgentOutputs]
      cases a with
      | zero =>
          rw [List.getD_cons_zero, rsplit_drop_one]
          rfl
      | succ a' =>
          rw [List.getD_cons_succ, rsplit_headD]
          have := ih (RKey.sub key 0) a' (by simpa using ha)
          simpa using this

theorem processVP_eq {S α β : Type} (f : S → RKey → List α → List β) (st : S)
    (key : RKey) (agents : List (String × List (List α))) (E L : Nat)
    (da : α) (db : β)
    (hA : 0 < agents.length) (hE : 0 < E)
    (hsh : ∀ p ∈ agents, p.2 ≠ [] ∧ ∀ row ∈ p.2, row.length = E)
    (hf : ∀ k s, (f st k s).length = L) :
    processVP f st key agents da db =
      ((List.range L).map (fun l =>
        ((List.range agents.length).map (fun a =>
          (List.range E).map (fun e =>
            (f st (RKey.sub (chainKey key a) (e + 1))
              (colSlice (agents.getD a ("", [])).2 e da)).getD l db))).flatten)).flatten := by
  have hwidth : ∀ a, a < agents.length →
      (((agents.getD a ("", [])).2.headD []).length) = E := by
    intro a ha
    obtain ⟨hne, hrows⟩ := hsh _ (getD_mem_of_lt agents a ("", []) ha)
    cases hx : (agents.getD a ("", [])).2 with
    | nil => exact absurd hx hne
    | cons r rs =>
        rw [hx] at hrows
        simpa using hrows r (by simp)
  have hout : ∀ a, a < agents.length →
      (vpAgentOutputs f st da db key agents).getD a [] =
        (List.range L).map (fun l => (List.range E).map
          (fun e => (f st (RKey.sub (chainKey key a) (e + 1))
            (colSlice (agents.getD a ("", [])).2 e da)).getD l db)) := by
    intro a ha
    rw [vpAgentOutputs_getD f st da db agents key a ha, hwidth a ha,
      vmapEnv_eq _ _ _ da db E L (by simp) hE (fun k s => hf k s)]
    apply range_map_congr
    intro l _
    apply range_map_congr
    intro e he
    rw [getD_range_map _ E e _ he]
  rw [processVP]
  have hL0 : ((vpAgentOutputs f st da db key agents).headD []).length = L := by
    rw [headD_eq_getD, hout 0 hA]
    simp
  rw [hL0]
  refine congrArg List.flatten ?_
  apply range_map_congr
  intro l hl
  refine congrArg List.flatten ?_
  rw [map_eq_range_getD (fun o => o.getD l []) [] (vpAgentOutputs f st da db key agents),
    vpAgentOutputs_length]
  apply range_map_congr
  intro a ha
  rw [hout a ha, getD_range_map _ L l _ hl]

/-- C1 (amended): for the vectorized+parallel experience-processing lift over
`A` agents and `E` environments, when the single-instance function's output has
leading length `L`, the flattened output has leading dimension `L·(A·E)` — not
`E·A` unless `L = 1` — and the value at flat position `l·(A·E) + (a·E + e)`
equals element `l` of the single-instance function applied to agent `a`'s
env-`e` slice with the sub-key split as index `e+1` from the agent-`a` chained
key. -/
theorem processVP_spec_C1 :
    ∀ (S α β : Type) (f : S → RKey → List α → List β) (st : S) (key : RKey)
      (agents : List (String × List (List α))) (E L : Nat) (da : α) (db : β),
      0 < agents.length → 0 < E →
      (∀ p ∈ agents, p.2 ≠ [] ∧ ∀ row ∈ p.2, row.length = E) →
      (∀ k s, (f st k s).length = L) →
      (processVP f st key agents da db).length = L * (agents.length * E) ∧
      (∀ l a e, l < L → a < agents.length → e < E →
        (processVP f st key agents da db).getD
            (l * (agents.length * E) + (a * E + e)) db =
          (f st (RKey.sub (chainKey key a) (e + 1))
            (colSlice (agents.getD a ("", [])).2 e da)).getD l db) := by
  intro S α β f st key agents E L da db hA hE hsh hf
  rw [processVP_eq f st key agents E L da db hA hE hsh hf]
  have hMrows : ∀ l : Nat, ∀ r ∈ (List.range agents.length).map (fun a =>
      (List.range E).map (fun e =>
        (f st (RKey.sub (chainKey key a) (e + 1))
          (colSlice (agents.getD a ("", [])).2 e da)).getD l db)), r.length = E := by
    intro l r hr
    obtain ⟨a, _, rfl⟩ := List.mem_map.mp hr
    simp
  have hRows : ∀ r ∈ (List.range L).map (fun l =>
      ((List.range agents.length).map (fun a =>
        (List.range E).map (fun e =>
          (f st (RKey.sub (chainKey key a) (e + 1))
            (colSlice (agents.getD a ("", [])).2 e da)).getD l db))).flatten),
      r.length = agents.length * E := by
    intro r hr
    obtain ⟨l, _, rfl⟩ := List.mem_map.mp hr
    rw [flatten_uniform_length E _ (hMrows l)]
    simp
  constructor
  · rw [flatten_uniform_length (agents.length * E) _ hRows]
    simp
  · intro l a e hl ha he
    have hj : a * E + e < agents.length * E := by
      have h1 : a * E + e < (a + 1) * E := by
        have : (a + 1) * E = a * E + E := by ring
        omega
      have h2 : (a + 1) * E ≤ agents.length * E := Nat.mul_le_mul_right E ha
      omega
    rw [flatten_uniform_getD (agents.length * E) db _ l (a * E + e) hRows
      (by simpa using hl) hj]
    rw [getD_range_map _ L l _ hl]
    rw [flatten_uniform_getD E db _ a e (hMrows l) (by simpa using ha) he]
    rw [getD_range_map _ agents.length a _ ha]
    rw [getD_range_map _ E e _ he]

/-- Witness for C1 (amended) at a concrete input with `L = 1`, `A = 2`,
`E = 2`. -/
theorem processVP_spec_C1_witness :
    (0 < [("a", [[(10 : Nat), 11]]), ("b", [[20, 21]])].length) ∧ ((0 : Nat) < 2) ∧
    (∀ p ∈ [("a", [[(10 : Nat), 11]]), ("b", [[20, 21]])],
      p.2 ≠ [] ∧ ∀ row ∈ p.2, row.length = 2) ∧
    (∀ (k : RKey) (s : List Nat),
      ((fun (_ : Unit) (_ : RKey) (s : List Nat) => [s.headD 0]) () k s).length = 1) ∧
    ((processVP (fun (_ : Unit) (_ : RKey) (s : List Nat) => [s.headD 0]) ()
        (RKey.base 0) [("a", [[(10 : Nat), 11]]), ("b", [[20, 21]])] 0 0).length =
      1 * ([("a", [[(10 : Nat), 11]]), ("b", [[20, 21]])].length * 2) ∧
     (∀ l a e, l < 1 → a < [("a", [[(10 : Nat), 11]]), ("b", [[20, 21]])].length →
        e < 2 →
        (processVP (fun (_ : Unit) (_ : RKey) (s : List Nat) => [s.headD 0]) ()
            (RKey.base 0) [("a", [[(10 : Nat), 11]]), ("b", [[20, 21]])] 0 0).getD
            (l * ([("a", [[(10 : Nat), 11]]), ("b", [[20, 21]])].length * 2) +
              (a * 2 + e)) 0 =
          ((fun (_ : Unit) (_ : RKey) (s : List Nat) => [s.headD 0]) ()
            (RKey.sub (chainKey (RKey.base 0) a) (e + 1))
            (colSlice (([("a", [[(10 : Nat), 11]]), ("b", [[20, 21]])].getD a
              ("", [])).2) e 0)).getD l 0)) :=
  ⟨by decide, by decide, by decide, fun _ _ => rfl,
    processVP_spec_C1 Unit Nat Nat (fun _ _ s => [s.headD 0]) () (RKey.base 0)
      [("a", [[10, 11]]), ("b", [[20, 21]])] 2 1 0 0 (by decide) (by decide)
      (by decide) (fun _ _ => rfl)⟩

/-- Counterexample for C1 as stated: with one agent, one environment and a
single-instance output of leading length 2, the flattened output has leading
dimension 2, not `E×A = 1`. -/
theorem processVP_spec_C1_counterexample :
    (processVP (fun (_ : Unit) (_ : RKey) (_ : List Nat) => [7, 7]) ()
        (RKey.base 0) [("a", [[0]])] 0 0).length ≠ 1 * 1 := by
  decide
